import Mathlib

/-!
Verification of the asynchronous chunk-loading subsystem of the Blok
repository (src/Blok/Server.hh).

The embedding models the coordinator state of `Blok::Server` — the three
collections `chunkRequests` (pending), `chunkRequestsInProgress`
(in-progress) and `loadedChunks` (loaded) — and the operations that touch
them: the consumer-facing `getChunk(id, request)` and the worker loop
`LocalServer::T_chunkLoad_run`, split at the lock boundaries into the
drain step and the store-back (commit) step, with generation in between.

Externally observable states are exactly the states between the
lock-protected blocks, so the step relation has one step per critical
section: a `getChunk` call, the worker's drain block, and the worker's
store-back block.  The world generator `worldGen->getChunk` is an opaque
parameter `gen : ChunkID → Chunk`.
-/

namespace Blok

/-- Modelled from the spec: `ChunkID` is defined in Blok.hh, which is not
part of the sources; the spec describes it as "an opaque, hashable,
equality-comparable coordinate key (three integer axes)". -/
structure ChunkID where
  X : Int
  Y : Int
  Z : Int
deriving DecidableEq, Repr

/-- The coordinator state of `Blok::Server`: the three collections guarded
by the mutex `L_chunks`.  `Set<ChunkID>` is modelled as a duplicate-free
list, `Map<ChunkID, Chunk*>` as an association list with unique keys
(both properties are established as reachability invariants rather than
baked into the type).  The chunk payload type is an opaque parameter. -/
structure ServerState (Chunk : Type) where
  chunkRequests : List ChunkID
  chunkRequestsInProgress : List ChunkID
  loadedChunks : List (ChunkID × Chunk)
deriving DecidableEq, Repr

variable {Chunk : Type}

/-- `loadedChunks.find(id)` on the association-list model. -/
def mapLookup (m : List (ChunkID × Chunk)) (k : ChunkID) : Option Chunk :=
  match m with
  | [] => none
  | (k', v) :: rest => if k' = k then some v else mapLookup rest k

/-- `m[k] = v` on the association-list model: replace the binding of `k`
if present, otherwise append a new one. -/
def mapStore (m : List (ChunkID × Chunk)) (k : ChunkID) (v : Chunk) :
    List (ChunkID × Chunk) :=
  match m with
  | [] => [(k, v)]
  | (k', v') :: rest =>
      if k' = k then (k, v) :: rest else (k', v') :: mapStore rest k v

/-- `Server::getChunk(id, request)` (Server.hh lines 61-83), the whole
body of which runs under `L_chunks`: look `id` up in `loadedChunks`; if
found return it; if not found and `request` holds, insert `id` into
`chunkRequests` unless it is already in `chunkRequests` or
`chunkRequestsInProgress`; return NULL (here `none`).  The result pairs
the returned chunk with the post-state. -/
def getChunk (s : ServerState Chunk) (id : ChunkID) (request : Bool) :
    Option Chunk × ServerState Chunk :=
  match mapLookup s.loadedChunks id with
  | some c => (some c, s)
  | none =>
      if request then
        if id ∉ s.chunkRequests ∧ id ∉ s.chunkRequestsInProgress then
          (none, { s with chunkRequests := id :: s.chunkRequests })
        else
          (none, s)
      else
        (none, s)

/-- The worker's first critical section (Server.hh lines 178-183):
`chunkRequestsInProgress = chunkRequests; chunkRequests.clear()`. -/
def drainRequests (s : ServerState Chunk) : ServerState Chunk :=
  { s with chunkRequestsInProgress := s.chunkRequests, chunkRequests := [] }

/-- The generation loop (Server.hh lines 190-193), run outside the lock:
`res[cid] = worldGen->getChunk(cid)` for each `cid` in the batch. -/
def generateBatch (gen : ChunkID → Chunk) (ids : List ChunkID) :
    List (ChunkID × Chunk) :=
  ids.map (fun cid => (cid, gen cid))

/-- One iteration of the store-back loop (Server.hh line 199):
`loadedChunks[elem.first] = elem.second` for a single generated pair.
It does not touch `chunkRequestsInProgress`. -/
def commitPair (s : ServerState Chunk) (p : ChunkID × Chunk) :
    ServerState Chunk :=
  { s with loadedChunks := mapStore s.loadedChunks p.1 p.2 }

/-- The store-back on the map alone: fold `mapStore` over the results. -/
def storeResults (m : List (ChunkID × Chunk)) (res : List (ChunkID × Chunk)) :
    List (ChunkID × Chunk) :=
  res.foldl (fun acc p => mapStore acc p.1 p.2) m

/-- The worker's second critical section (Server.hh lines 197-202): store
every generated pair into `loadedChunks`, then clear
`chunkRequestsInProgress` wholesale. -/
def commitResults (s : ServerState Chunk) (res : List (ChunkID × Chunk)) :
    ServerState Chunk :=
  { s with loadedChunks := storeResults s.loadedChunks res,
           chunkRequestsInProgress := [] }

/-- One full iteration of `LocalServer::T_chunkLoad_run` (Server.hh lines
178-202) after the wait loop has seen a nonempty `chunkRequests`: drain,
generate the drained batch, store back. -/
def chunkLoadCycle (gen : ChunkID → Chunk) (s : ServerState Chunk) :
    ServerState Chunk :=
  let s1 := drainRequests s
  commitResults s1 (generateBatch gen s1.chunkRequestsInProgress)

/-- The atomic operations: each is one critical section of Server.hh. -/
inductive Op where
  | get (id : ChunkID) (request : Bool)
  | drain
  | commit
deriving DecidableEq, Repr

/-- Effect of one operation on the coordinator state.  A `commit` step
generates the current in-progress batch (the generation loop reads
`chunkRequestsInProgress`, which no consumer operation mutates, so the
batch generated equals the in-progress set at commit time). -/
def applyOp (gen : ChunkID → Chunk) (s : ServerState Chunk) : Op → ServerState Chunk
  | .get id request => (getChunk s id request).2
  | .drain => drainRequests s
  | .commit => commitResults s (generateBatch gen s.chunkRequestsInProgress)

/-- When an operation can fire.  `getChunk` is always callable.  The
worker drains only after its wait loop saw `chunkRequests.size() != 0`,
and — the worker being a single sequential thread whose previous
iteration ended by clearing `chunkRequestsInProgress` — only when the
in-progress set is empty. -/
def opOk (s : ServerState Chunk) : Op → Bool
  | .get _ _ => true
  | .drain => decide (s.chunkRequestsInProgress = []) && !decide (s.chunkRequests = [])
  | .commit => true

/-- A well-formed trace: every operation fires in a state where it can. -/
def wfTrace (gen : ChunkID → Chunk) (s : ServerState Chunk) : List Op → Bool
  | [] => true
  | op :: ops => opOk s op && wfTrace gen (applyOp gen s op) ops

/-- Run a list of operations. -/
def runOps (gen : ChunkID → Chunk) (s : ServerState Chunk) : List Op → ServerState Chunk
  | [] => s
  | op :: ops => runOps gen (applyOp gen s op) ops

/-- The state of a freshly constructed server: all collections empty. -/
def initState : ServerState Chunk := ⟨[], [], []⟩

/-- States reachable from the initial state by a well-formed trace. -/
def Reachable (gen : ChunkID → Chunk) (s : ServerState Chunk) : Prop :=
  ∃ ops : List Op, wfTrace gen initState ops = true ∧ runOps gen initState ops = s

/-- Number of invocations of the generator on `x` along a trace: each
commit step invokes `gen` once per element of the in-progress batch. -/
def genCount (gen : ChunkID → Chunk) (s : ServerState Chunk) (x : ChunkID) :
    List Op → Nat
  | [] => 0
  | op :: ops =>
      (match op with
       | .commit => if x ∈ s.chunkRequestsInProgress then 1 else 0
       | _ => 0) + genCount gen (applyOp gen s op) x ops

/-- The coordinator invariant, holding at every externally observable
state: the two request sets are duplicate-free and pairwise disjoint from
each other and from the loaded keys, and the loaded map has unique keys. -/
def Inv (s : ServerState Chunk) : Prop :=
  s.chunkRequests.Nodup ∧
  s.chunkRequestsInProgress.Nodup ∧
  (∀ id ∈ s.chunkRequests, id ∉ s.chunkRequestsInProgress) ∧
  (∀ id ∈ s.chunkRequests, mapLookup s.loadedChunks id = none) ∧
  (∀ id ∈ s.chunkRequestsInProgress, mapLookup s.loadedChunks id = none) ∧
  (s.loadedChunks.map Prod.fst).Nodup

/-! ### Basic lemmas about the association-list map -/

theorem mapLookup_mapStore_self (m : List (ChunkID × Chunk)) (k : ChunkID) (v : Chunk) :
    mapLookup (mapStore m k v) k = some v := by
  induction m with
  | nil => simp [mapStore, mapLookup]
  | cons p rest ih =>
      obtain ⟨k', v'⟩ := p
      by_cases h : k' = k
      · simp [mapStore, h, mapLookup]
      · simp [mapStore, h, mapLookup, ih]

theorem mapLookup_mapStore_ne (m : List (ChunkID × Chunk)) (k k' : ChunkID) (v : Chunk)
    (h : k' ≠ k) : mapLookup (mapStore m k v) k' = mapLookup m k' := by
  have h' : k ≠ k' := Ne.symm h
  induction m with
  | nil => simp [mapStore, mapLookup, h']
  | cons p rest ih =>
      obtain ⟨k0, v0⟩ := p
      by_cases h0 : k0 = k
      · subst h0
        simp [mapStore, mapLookup, h']
      · simp only [mapStore, if_neg h0, mapLookup]
        by_cases h1 : k0 = k'
        · simp [h1]
        · simp [h1, ih]

theorem mem_keys_mapStore (m : List (ChunkID × Chunk)) (k x : ChunkID) (v : Chunk) :
    x ∈ (mapStore m k v).map Prod.fst ↔ x = k ∨ x ∈ m.map Prod.fst := by
  induction m with
  | nil => simp [mapStore]
  | cons p rest ih =>
      obtain ⟨k0, v0⟩ := p
      by_cases h0 : k0 = k
      · subst h0
        simp [mapStore]
      · simp only [mapStore, if_neg h0, List.map_cons, List.mem_cons, ih]
        tauto

theorem nodup_keys_mapStore (m : List (ChunkID × Chunk)) (k : ChunkID) (v : Chunk)
    (h : (m.map Prod.fst).Nodup) : ((mapStore m k v).map Prod.fst).Nodup := by
  induction m with
  | nil => simp [mapStore]
  | cons p rest ih =>
      obtain ⟨k0, v0⟩ := p
      simp only [List.map_cons, List.nodup_cons] at h
      by_cases h0 : k0 = k
      · subst h0
        simpa [mapStore] using h
      · simp only [mapStore, if_neg h0, List.map_cons, List.nodup_cons]
        refine ⟨?_, ih h.2⟩
        intro hmem
        rcases (mem_keys_mapStore rest k k0 v).1 hmem with h1 | h1
        · exact h0 h1
        · exact h.1 h1

theorem storeResults_nil (m : List (ChunkID × Chunk)) :
    storeResults m [] = m := rfl

theorem storeResults_cons (m : List (ChunkID × Chunk)) (p : ChunkID × Chunk)
    (res : List (ChunkID × Chunk)) :
    storeResults m (p :: res) = storeResults (mapStore m p.1 p.2) res := rfl

theorem mapLookup_storeResults_notmem (res m : List (ChunkID × Chunk)) (x : ChunkID)
    (h : x ∉ res.map Prod.fst) :
    mapLookup (storeResults m res) x = mapLookup m x := by
  induction res generalizing m with
  | nil => rfl
  | cons p rest ih =>
      simp only [List.map_cons, List.mem_cons, not_or] at h
      rw [storeResults_cons, ih _ h.2, mapLookup_mapStore_ne _ _ _ _ h.1]

theorem nodup_keys_storeResults (res m : List (ChunkID × Chunk))
    (h : (m.map Prod.fst).Nodup) :
    ((storeResults m res).map Prod.fst).Nodup := by
  induction res generalizing m with
  | nil => exact h
  | cons p rest ih =>
      rw [storeResults_cons]
      exact ih _ (nodup_keys_mapStore _ _ _ h)

/-- The workhorse: storing back the generated batch maps every id of the
batch to its generated chunk and leaves every other binding unchanged. -/
theorem mapLookup_storeResults_generateBatch (gen : ChunkID → Chunk)
    (ids : List ChunkID) (m : List (ChunkID × Chunk)) (x : ChunkID) :
    mapLookup (storeResults m (generateBatch gen ids)) x =
      if x ∈ ids then some (gen x) else mapLookup m x := by
  induction ids generalizing m with
  | nil => simp [generateBatch, storeResults_nil]
  | cons i rest ih =>
      simp only [generateBatch, List.map_cons] at *
      rw [storeResults_cons]
      by_cases hx : x ∈ rest
      · simp [ih, hx]
      · by_cases hxi : x = i
        · subst hxi
          simp [ih, hx, mapLookup_mapStore_self]
        · simp [ih, hx, hxi, mapLookup_mapStore_ne _ _ _ _ hxi]

/-! ### Shape lemmas for `getChunk` -/

theorem getChunk_state (s : ServerState Chunk) (id : ChunkID) (request : Bool) :
    (getChunk s id request).2 = s ∨
    ((getChunk s id request).2 = { s with chunkRequests := id :: s.chunkRequests } ∧
      mapLookup s.loadedChunks id = none ∧ request = true ∧
      id ∉ s.chunkRequests ∧ id ∉ s.chunkRequestsInProgress) := by
  unfold getChunk
  cases hl : mapLookup s.loadedChunks id with
  | some c => exact Or.inl rfl
  | none =>
      cases request with
      | false => exact Or.inl rfl
      | true =>
          by_cases hc : id ∉ s.chunkRequests ∧ id ∉ s.chunkRequestsInProgress
          · exact Or.inr ⟨by simp [hc], rfl, rfl, hc.1, hc.2⟩
          · exact Or.inl (by simp [hc])

theorem getChunk_loadedChunks (s : ServerState Chunk) (id : ChunkID) (request : Bool) :
    ((getChunk s id request).2).loadedChunks = s.loadedChunks := by
  rcases getChunk_state s id request with h | h
  · rw [h]
  · rw [h.1]

theorem getChunk_inProgress (s : ServerState Chunk) (id : ChunkID) (request : Bool) :
    ((getChunk s id request).2).chunkRequestsInProgress = s.chunkRequestsInProgress := by
  rcases getChunk_state s id request with h | h
  · rw [h]
  · rw [h.1]

theorem getChunk_fst (s : ServerState Chunk) (id : ChunkID) (request : Bool) :
    (getChunk s id request).1 = mapLookup s.loadedChunks id := by
  unfold getChunk
  cases hl : mapLookup s.loadedChunks id with
  | some c => rfl
  | none =>
      cases request with
      | false => rfl
      | true =>
          by_cases hc : id ∉ s.chunkRequests ∧ id ∉ s.chunkRequestsInProgress
          · simp [hc]
          · simp [hc]

theorem getChunk_not_loaded_true (s : ServerState Chunk) (id : ChunkID)
    (hl : mapLookup s.loadedChunks id = none) :
    getChunk s id true =
      (none, if id ∈ s.chunkRequests ∨ id ∈ s.chunkRequestsInProgress then s
             else { s with chunkRequests := id :: s.chunkRequests }) := by
  unfold getChunk
  rw [hl]
  by_cases h : id ∈ s.chunkRequests ∨ id ∈ s.chunkRequestsInProgress
  · have h' : ¬(id ∉ s.chunkRequests ∧ id ∉ s.chunkRequestsInProgress) := by tauto
    simp [h', h]
  · have h' : id ∉ s.chunkRequests ∧ id ∉ s.chunkRequestsInProgress := by tauto
    simp [h', h]

theorem getChunk_false_eq (s : ServerState Chunk) (id : ChunkID) :
    getChunk s id false = (mapLookup s.loadedChunks id, s) := by
  unfold getChunk
  cases hl : mapLookup s.loadedChunks id <;> rfl

/-! ### Invariant preservation -/

theorem inv_initState : Inv (initState : ServerState Chunk) := by
  refine ⟨List.nodup_nil, List.nodup_nil, ?_, ?_, ?_, List.nodup_nil⟩ <;>
    intro id hid <;> cases hid

theorem inv_getChunk (s : ServerState Chunk) (id : ChunkID) (request : Bool)
    (h : Inv s) : Inv ((getChunk s id request).2) := by
  obtain ⟨h1, h2, h3, h4, h5, h6⟩ := h
  rcases getChunk_state s id request with hs | hs
  · rw [hs]; exact ⟨h1, h2, h3, h4, h5, h6⟩
  · obtain ⟨hs, hl, _, hp, hi⟩ := hs
    rw [hs]
    refine ⟨List.nodup_cons.2 ⟨hp, h1⟩, h2, ?_, ?_, h5, h6⟩
    · intro x hx
      rcases List.mem_cons.1 hx with hx | hx
      · subst hx; exact hi
      · exact h3 x hx
    · intro x hx
      rcases List.mem_cons.1 hx with hx | hx
      · subst hx; exact hl
      · exact h4 x hx

theorem inv_drainRequests (s : ServerState Chunk) (h : Inv s) :
    Inv (drainRequests s) := by
  obtain ⟨h1, h2, h3, h4, h5, h6⟩ := h
  refine ⟨List.nodup_nil, h1, ?_, ?_, h4, h6⟩ <;> intro id hid <;> cases hid

theorem inv_commitResults (gen : ChunkID → Chunk) (s : ServerState Chunk) (h : Inv s) :
    Inv (commitResults s (generateBatch gen s.chunkRequestsInProgress)) := by
  obtain ⟨h1, h2, h3, h4, h5, h6⟩ := h
  refine ⟨h1, List.nodup_nil, ?_, ?_, ?_, ?_⟩
  · intro id _ hid; cases hid
  · intro id hid
    show mapLookup (storeResults s.loadedChunks _) id = none
    rw [mapLookup_storeResults_generateBatch, if_neg (h3 id hid)]
    exact h4 id hid
  · intro id hid; cases hid
  · exact nodup_keys_storeResults _ _ h6

theorem inv_applyOp (gen : ChunkID → Chunk) (s : ServerState Chunk) (op : Op)
    (h : Inv s) : Inv (applyOp gen s op) := by
  cases op with
  | get id request => exact inv_getChunk s id request h
  | drain => exact inv_drainRequests s h
  | commit => exact inv_commitResults gen s h

theorem inv_runOps (gen : ChunkID → Chunk) (s : ServerState Chunk) (ops : List Op)
    (h : Inv s) : Inv (runOps gen s ops) := by
  induction ops generalizing s with
  | nil => exact h
  | cons op rest ih => exact ih _ (inv_applyOp gen s op h)

theorem inv_reachable (gen : ChunkID → Chunk) (s : ServerState Chunk)
    (h : Reachable gen s) : Inv s := by
  obtain ⟨ops, _, hrun⟩ := h
  rw [← hrun]
  exact inv_runOps gen _ ops inv_initState

/-! ### Monotonicity of the loaded map -/

theorem mapLookup_applyOp_mono (gen : ChunkID → Chunk) (s : ServerState Chunk)
    (op : Op) (x : ChunkID) (c : Chunk) (h : Inv s)
    (hx : mapLookup s.loadedChunks x = some c) :
    mapLookup (applyOp gen s op).loadedChunks x = some c := by
  cases op with
  | get id request => rw [applyOp, getChunk_loadedChunks]; exact hx
  | drain => exact hx
  | commit =>
      show mapLookup (storeResults s.loadedChunks _) x = some c
      rw [mapLookup_storeResults_generateBatch]
      have hni : x ∉ s.chunkRequestsInProgress := by
        intro hmem
        rw [h.2.2.2.2.1 x hmem] at hx
        cases hx
      rw [if_neg hni]
      exact hx

theorem mapLookup_runOps_mono (gen : ChunkID → Chunk) (s : ServerState Chunk)
    (ops : List Op) (x : ChunkID) (c : Chunk) (h : Inv s)
    (hx : mapLookup s.loadedChunks x = some c) :
    mapLookup (runOps gen s ops).loadedChunks x = some c := by
  induction ops generalizing s with
  | nil => exact hx
  | cons op rest ih =>
      exact ih _ (inv_applyOp gen s op h) (mapLookup_applyOp_mono gen s op x c h hx)

/-! ### Counting generator invocations -/

theorem genCount_loaded_zero (gen : ChunkID → Chunk) (s : ServerState Chunk)
    (x : ChunkID) (c : Chunk) (ops : List Op) (h : Inv s)
    (hx : mapLookup s.loadedChunks x = some c) :
    genCount gen s x ops = 0 := by
  induction ops generalizing s with
  | nil => rfl
  | cons op rest ih =>
      have h' := inv_applyOp gen s op h
      have hx' := mapLookup_applyOp_mono gen s op x c h hx
      cases op with
      | get id request => simpa [genCount] using ih _ h' hx'
      | drain => simpa [genCount] using ih _ h' hx'
      | commit =>
          have hni : x ∉ s.chunkRequestsInProgress := by
            intro hmem
            rw [h.2.2.2.2.1 x hmem] at hx
            cases hx
          simpa [genCount, hni] using ih _ h' hx'

theorem genCount_le_one (gen : ChunkID → Chunk) (s : ServerState Chunk)
    (x : ChunkID) (ops : List Op) (h : Inv s) :
    genCount gen s x ops ≤ 1 := by
  induction ops generalizing s with
  | nil => exact Nat.zero_le 1
  | cons op rest ih =>
      have h' := inv_applyOp gen s op h
      cases op with
      | get id request => simpa [genCount] using ih _ h'
      | drain => simpa [genCount] using ih _ h'
      | commit =>
          by_cases hmem : x ∈ s.chunkRequestsInProgress
          · have hx' : mapLookup (applyOp gen s .commit).loadedChunks x = some (gen x) := by
              show mapLookup (storeResults s.loadedChunks _) x = some (gen x)
              rw [mapLookup_storeResults_generateBatch, if_pos hmem]
            have hrest := genCount_loaded_zero gen _ x (gen x) rest h' hx'
            simp [genCount, hmem, hrest]
          · simpa [genCount, hmem] using ih _ h'

theorem genCount_pos_of_loaded (gen : ChunkID → Chunk) (s : ServerState Chunk)
    (x : ChunkID) (ops : List Op)
    (hx : mapLookup s.loadedChunks x = none)
    (hl : mapLookup (runOps gen s ops).loadedChunks x ≠ none) :
    1 ≤ genCount gen s x ops := by
  induction ops generalizing s with
  | nil => exact absurd hx hl
  | cons op rest ih =>
      have hl' : mapLookup (runOps gen (applyOp gen s op) rest).loadedChunks x ≠ none := hl
      cases op with
      | get id request =>
          have hx' : mapLookup (applyOp gen s (.get id request)).loadedChunks x = none := by
            rw [applyOp, getChunk_loadedChunks]; exact hx
          simpa [genCount] using ih _ hx' hl'
      | drain =>
          have hx' : mapLookup (applyOp gen s .drain).loadedChunks x = none := hx
          simpa [genCount] using ih _ hx' hl'
      | commit =>
          by_cases hmem : x ∈ s.chunkRequestsInProgress
          · simp only [genCount, hmem, if_pos]
            exact Nat.le_add_right 1 _
          · have hx' : mapLookup (applyOp gen s .commit).loadedChunks x = none := by
              show mapLookup (storeResults s.loadedChunks _) x = none
              rw [mapLookup_storeResults_generateBatch, if_neg hmem]
              exact hx
            simpa [genCount, hmem] using ih _ hx' hl'

theorem count_requests_le_one (s : ServerState Chunk) (x : ChunkID) (h : Inv s) :
    List.count x (s.chunkRequests ++ s.chunkRequestsInProgress) ≤ 1 := by
  obtain ⟨h1, h2, h3, _, _, _⟩ := h
  rw [List.count_append]
  by_cases hx : x ∈ s.chunkRequests
  · rw [List.count_eq_zero_of_not_mem (h3 x hx)]
    simpa using List.nodup_iff_count_le_one.1 h1 x
  · rw [List.count_eq_zero_of_not_mem hx]
    simpa using List.nodup_iff_count_le_one.1 h2 x

theorem mapLookup_ne_none_of_mem_keys (m : List (ChunkID × Chunk)) (x : ChunkID)
    (h : x ∈ m.map Prod.fst) : mapLookup m x ≠ none := by
  induction m with
  | nil => cases h
  | cons p rest ih =>
      obtain ⟨k, v⟩ := p
      rcases List.mem_cons.1 h with h | h
      · subst h
        simp [mapLookup]
      · by_cases hk : k = x
        · simp [mapLookup, hk]
        · simpa [mapLookup, hk] using ih h

theorem foldl_commitPair_fields (s : ServerState Chunk) (res : List (ChunkID × Chunk)) :
    (res.foldl commitPair s).loadedChunks = storeResults s.loadedChunks res ∧
    (res.foldl commitPair s).chunkRequests = s.chunkRequests ∧
    (res.foldl commitPair s).chunkRequestsInProgress = s.chunkRequestsInProgress := by
  induction res generalizing s with
  | nil => exact ⟨rfl, rfl, rfl⟩
  | cons p rest ih => exact ih (commitPair s p)

/-- Requesting an unloaded, unrequested id and then running one full worker
cycle loads exactly `gen id` for it. -/
theorem request_then_cycle_loads (gen : ChunkID → Chunk) (s : ServerState Chunk)
    (id : ChunkID)
    (h1 : mapLookup s.loadedChunks id = none)
    (h2 : id ∉ s.chunkRequests) (h3 : id ∉ s.chunkRequestsInProgress) :
    (getChunk ((getChunk s id true).2) id false).1 = none ∧
    (getChunk (chunkLoadCycle gen ((getChunk s id true).2)) id false).1
      = some (gen id) := by
  have hcond : ¬(id ∈ s.chunkRequests ∨ id ∈ s.chunkRequestsInProgress) := by tauto
  have hstep : (getChunk s id true).2 = { s with chunkRequests := id :: s.chunkRequests } := by
    rw [getChunk_not_loaded_true s id h1, if_neg hcond]
  constructor
  · rw [getChunk_fst, hstep]
    exact h1
  · rw [getChunk_fst, hstep]
    show mapLookup
        (storeResults s.loadedChunks (generateBatch gen (id :: s.chunkRequests))) id
      = some (gen id)
    rw [mapLookup_storeResults_generateBatch, if_pos (List.mem_cons_self id _)]

/-! ### The claims -/

/-- C1: for every ChunkID `x`, along any well-formed server lifetime the
number of entries for `x` across pending and in-progress is at most one at
every reachable state, the generator is invoked on `x` at most once, and
once `x`'s chunk is present in loaded the generator has been invoked on
`x` exactly once. -/
theorem C1_dedup_generate_once (Chunk : Type) (gen : ChunkID → Chunk)
    (ops : List Op) (x : ChunkID)
    (hwf : wfTrace gen initState ops = true) :
    List.count x ((runOps gen initState ops).chunkRequests ++
                  (runOps gen initState ops).chunkRequestsInProgress) ≤ 1 ∧
    genCount gen initState x ops ≤ 1 ∧
    (mapLookup (runOps gen initState ops).loadedChunks x ≠ none →
        genCount gen initState x ops = 1) := by
  have hInv := inv_runOps gen initState ops inv_initState
  refine ⟨count_requests_le_one _ x hInv,
          genCount_le_one gen initState x ops inv_initState, ?_⟩
  intro hl
  have hle := genCount_le_one gen initState x ops inv_initState
  have hge := genCount_pos_of_loaded gen initState x ops rfl hl
  omega

theorem C1_witness :
    (List.count (⟨0,0,0⟩ : ChunkID)
       ((runOps (fun _ => (0:Nat)) initState
           [Op.get ⟨0,0,0⟩ true, Op.get ⟨0,0,0⟩ true, Op.drain, Op.commit]).chunkRequests ++
        (runOps (fun _ => (0:Nat)) initState
           [Op.get ⟨0,0,0⟩ true, Op.get ⟨0,0,0⟩ true, Op.drain, Op.commit]).chunkRequestsInProgress)
      ≤ 1) ∧
    genCount (fun _ => (0:Nat)) initState ⟨0,0,0⟩
        [Op.get ⟨0,0,0⟩ true, Op.get ⟨0,0,0⟩ true, Op.drain, Op.commit] = 1 := by
  have h := C1_dedup_generate_once Nat (fun _ => 0)
      [Op.get ⟨0,0,0⟩ true, Op.get ⟨0,0,0⟩ true, Op.drain, Op.commit] ⟨0,0,0⟩ (by decide)
  exact ⟨h.1, h.2.2 (by decide)⟩

/-- C2: at every reachable (externally observable) state the three
collections pending, in-progress and loaded are pairwise disjoint: no
ChunkID appears in more than one of them. -/
theorem C2_pairwise_disjoint (Chunk : Type) (gen : ChunkID → Chunk)
    (s : ServerState Chunk) (x : ChunkID) (hs : Reachable gen s) :
    ¬(x ∈ s.chunkRequests ∧ x ∈ s.chunkRequestsInProgress) ∧
    ¬(x ∈ s.chunkRequests ∧ x ∈ s.loadedChunks.map Prod.fst) ∧
    ¬(x ∈ s.chunkRequestsInProgress ∧ x ∈ s.loadedChunks.map Prod.fst) := by
  obtain ⟨_, _, h3, h4, h5, _⟩ := inv_reachable gen s hs
  exact ⟨fun ⟨ha, hb⟩ => h3 x ha hb,
         fun ⟨ha, hb⟩ => mapLookup_ne_none_of_mem_keys _ x hb (h4 x ha),
         fun ⟨ha, hb⟩ => mapLookup_ne_none_of_mem_keys _ x hb (h5 x ha)⟩

theorem C2_witness :
    ¬((⟨0,0,0⟩ : ChunkID) ∈ (⟨[⟨0,0,0⟩], [], []⟩ : ServerState Nat).chunkRequests ∧
      (⟨0,0,0⟩ : ChunkID) ∈ (⟨[⟨0,0,0⟩], [], []⟩ : ServerState Nat).chunkRequestsInProgress) :=
  (C2_pairwise_disjoint Nat (fun _ => 0) ⟨[⟨0,0,0⟩], [], []⟩ ⟨0,0,0⟩
      ⟨[Op.get ⟨0,0,0⟩ true], by decide, by decide⟩).1

/-- C3: for every state and id, `getChunk` returns the loaded chunk when
`id` is loaded; when not loaded and `request` is true it returns `none`
and inserts `id` into pending unless `id` is already pending or
in-progress; when not loaded and `request` is false it returns `none` and
changes nothing; absence is always the `none` return of the total lookup,
never an error. -/
theorem C3_getChunk_contract (Chunk : Type) (s : ServerState Chunk) (id : ChunkID) :
    (∀ c : Chunk, mapLookup s.loadedChunks id = some c →
        ∀ request : Bool, getChunk s id request = (some c, s)) ∧
    (mapLookup s.loadedChunks id = none →
        getChunk s id true =
          (none, if id ∈ s.chunkRequests ∨ id ∈ s.chunkRequestsInProgress then s
                 else { s with chunkRequests := id :: s.chunkRequests })) ∧
    (mapLookup s.loadedChunks id = none → getChunk s id false = (none, s)) ∧
    (getChunk s id false).2 = s := by
  refine ⟨?_, getChunk_not_loaded_true s id, ?_, ?_⟩
  · intro c hc request
    unfold getChunk
    rw [hc]
  · intro hl
    rw [getChunk_false_eq, hl]
  · rw [getChunk_false_eq]

theorem C3_getChunk_contract_witness :
    getChunk (⟨[], [], [(⟨0,0,0⟩, 5)]⟩ : ServerState Nat) ⟨0,0,0⟩ true
      = (some 5, ⟨[], [], [(⟨0,0,0⟩, 5)]⟩) ∧
    getChunk (⟨[], [], []⟩ : ServerState Nat) ⟨0,0,0⟩ true = (none, ⟨[⟨0,0,0⟩], [], []⟩) ∧
    getChunk (⟨[], [], []⟩ : ServerState Nat) ⟨0,0,0⟩ false = (none, ⟨[], [], []⟩) := by
  have h1 := C3_getChunk_contract Nat ⟨[], [], [(⟨0,0,0⟩, 5)]⟩ ⟨0,0,0⟩
  have h2 := C3_getChunk_contract Nat ⟨[], [], []⟩ ⟨0,0,0⟩
  refine ⟨h1.1 5 (by decide) true, ?_, h2.2.2.1 rfl⟩
  have h := h2.2.1 rfl
  simpa using h

/-- C4: the worker's drain step atomically makes in-progress equal to the
pending set as it was immediately before, empties pending, and leaves the
loaded map unchanged; the drained snapshot is exactly the batch the cycle
then generates, and a request arriving after the drain (during
generation) lands in the fresh pending set. -/
theorem C4_drain_atomic (Chunk : Type) (gen : ChunkID → Chunk) (s : ServerState Chunk) :
    (drainRequests s).chunkRequestsInProgress = s.chunkRequests ∧
    (drainRequests s).chunkRequests = [] ∧
    (drainRequests s).loadedChunks = s.loadedChunks ∧
    chunkLoadCycle gen s
      = commitResults (drainRequests s) (generateBatch gen s.chunkRequests) ∧
    (∀ id : ChunkID, mapLookup s.loadedChunks id = none → id ∉ s.chunkRequests →
        (getChunk (drainRequests s) id true).2.chunkRequests = [id]) := by
  refine ⟨rfl, rfl, rfl, rfl, ?_⟩
  intro id hl hp
  have hcond : ¬(id ∈ (drainRequests s).chunkRequests ∨
                 id ∈ (drainRequests s).chunkRequestsInProgress) := by
    simp [drainRequests, hp]
  have hl' : mapLookup (drainRequests s).loadedChunks id = none := hl
  rw [getChunk_not_loaded_true (drainRequests s) id hl', if_neg hcond]
  rfl

theorem C4_drain_atomic_witness :
    (getChunk (drainRequests (⟨[⟨1,2,3⟩], [], []⟩ : ServerState Nat)) ⟨0,0,0⟩ true).2.chunkRequests
      = [⟨0,0,0⟩] :=
  (C4_drain_atomic Nat (fun _ => 0) ⟨[⟨1,2,3⟩], [], []⟩).2.2.2.2 ⟨0,0,0⟩ rfl (by decide)

/-- C5 counterexample: in the code's store-back loop, storing the single
generated pair (⟨0,0,0⟩, 7) of the drained batch [⟨0,0,0⟩, ⟨1,0,0⟩] makes
⟨0,0,0⟩ map to 7 in loaded but does NOT remove ⟨0,0,0⟩ from in-progress,
contradicting the claim that exactly that id is removed at that point. -/
theorem C5_counterexample :
    mapLookup (commitPair (⟨[], [⟨0,0,0⟩, ⟨1,0,0⟩], []⟩ : ServerState Nat)
        (⟨0,0,0⟩, 7)).loadedChunks ⟨0,0,0⟩ = some 7 ∧
    (⟨0,0,0⟩ : ChunkID) ∈ (commitPair (⟨[], [⟨0,0,0⟩, ⟨1,0,0⟩], []⟩ : ServerState Nat)
        (⟨0,0,0⟩, 7)).chunkRequestsInProgress := by
  decide

/-- C5 (amended): each generated chunk is stored into loaded individually,
once per generated chunk, but the per-pair store leaves in-progress (and
pending) untouched — the whole batch stays in-progress; the store-back
block equals the fold of the per-pair stores followed by clearing the
entire in-progress set, in the same critical section. -/
theorem C5_amended_commit (Chunk : Type) (s : ServerState Chunk)
    (p : ChunkID × Chunk) (res : List (ChunkID × Chunk)) :
    mapLookup (commitPair s p).loadedChunks p.1 = some p.2 ∧
    (commitPair s p).chunkRequestsInProgress = s.chunkRequestsInProgress ∧
    (commitPair s p).chunkRequests = s.chunkRequests ∧
    (commitResults s res).loadedChunks = (res.foldl commitPair s).loadedChunks ∧
    (commitResults s res).chunkRequests = (res.foldl commitPair s).chunkRequests ∧
    (commitResults s res).chunkRequestsInProgress = [] := by
  obtain ⟨hl, hp, _⟩ := foldl_commitPair_fields s res
  exact ⟨mapLookup_mapStore_self _ _ _, rfl, rfl, hl.symm, hp.symm, rfl⟩

/-- C6: once an id is loaded with chunk `c` at a reachable state, any
sequence of further operations keeps it bound to `c` in loaded and never
puts it back into pending or in-progress, and every pair of lookups (with
either flag) returns the same chunk `c`. -/
theorem C6_loaded_stable (Chunk : Type) (gen : ChunkID → Chunk)
    (s : ServerState Chunk) (x : ChunkID) (c : Chunk) (ops : List Op)
    (hs : Reachable gen s)
    (hx : mapLookup s.loadedChunks x = some c) :
    mapLookup (runOps gen s ops).loadedChunks x = some c ∧
    x ∉ (runOps gen s ops).chunkRequests ∧
    x ∉ (runOps gen s ops).chunkRequestsInProgress ∧
    ∀ b b' : Bool, (getChunk (runOps gen s ops) x b).1 = some c ∧
                   (getChunk (runOps gen s ops) x b').1 = some c := by
  have hInv := inv_reachable gen s hs
  have hmono := mapLookup_runOps_mono gen s ops x c hInv hx
  have hInv' := inv_runOps gen s ops hInv
  refine ⟨hmono, ?_, ?_, ?_⟩
  · intro hmem
    rw [hInv'.2.2.2.1 x hmem] at hmono
    cases hmono
  · intro hmem
    rw [hInv'.2.2.2.2.1 x hmem] at hmono
    cases hmono
  · intro b b'
    rw [getChunk_fst, getChunk_fst]
    exact ⟨hmono, hmono⟩

theorem C6_loaded_stable_witness :
    mapLookup (runOps (fun _ => (7:Nat)) ⟨[], [], [(⟨0,0,0⟩, 7)]⟩
        [Op.get ⟨1,0,0⟩ true, Op.drain, Op.commit]).loadedChunks ⟨0,0,0⟩ = some 7 ∧
    (getChunk (runOps (fun _ => (7:Nat)) ⟨[], [], [(⟨0,0,0⟩, 7)]⟩
        [Op.get ⟨1,0,0⟩ true, Op.drain, Op.commit]) ⟨0,0,0⟩ true).1 = some 7 := by
  have h := C6_loaded_stable Nat (fun _ => 7) ⟨[], [], [(⟨0,0,0⟩, 7)]⟩ ⟨0,0,0⟩ 7
      [Op.get ⟨1,0,0⟩ true, Op.drain, Op.commit]
      ⟨[Op.get ⟨0,0,0⟩ true, Op.drain, Op.commit], by decide, by decide⟩ (by decide)
  exact ⟨h.1, (h.2.2.2 true true).1⟩

/-- C7: from any state where ChunkID {0,0,0} is absent from all three
collections, after requesting it an immediate `getChunk(id, false)`
returns `none`, and after one full worker cycle (drain, generate, commit)
`getChunk(id, false)` returns exactly the chunk `gen id`. -/
theorem C7_concrete_scenario (Chunk : Type) (gen : ChunkID → Chunk)
    (s : ServerState Chunk)
    (h1 : mapLookup s.loadedChunks ⟨0,0,0⟩ = none)
    (h2 : (⟨0,0,0⟩ : ChunkID) ∉ s.chunkRequests)
    (h3 : (⟨0,0,0⟩ : ChunkID) ∉ s.chunkRequestsInProgress) :
    (getChunk ((getChunk s ⟨0,0,0⟩ true).2) ⟨0,0,0⟩ false).1 = none ∧
    (getChunk (chunkLoadCycle gen ((getChunk s ⟨0,0,0⟩ true).2)) ⟨0,0,0⟩ false).1
      = some (gen ⟨0,0,0⟩) :=
  request_then_cycle_loads gen s ⟨0,0,0⟩ h1 h2 h3

theorem C7_concrete_scenario_witness :
    (getChunk ((getChunk (initState : ServerState Nat) ⟨0,0,0⟩ true).2) ⟨0,0,0⟩ false).1
      = none ∧
    (getChunk (chunkLoadCycle (fun _ => (42:Nat))
        ((getChunk (initState : ServerState Nat) ⟨0,0,0⟩ true).2)) ⟨0,0,0⟩ false).1
      = some 42 :=
  C7_concrete_scenario Nat (fun _ => 42) initState rfl (by decide) (by decide)

/-- C8: a request is never dropped: if B is requested while it is neither
in the in-progress batch (which contains A) nor loaded, then B enters
pending, is still pending after the current batch commits, and is
generated and committed to loaded by the next worker cycle. -/
theorem C8_no_lost_requests (Chunk : Type) (gen : ChunkID → Chunk)
    (s : ServerState Chunk) (A B : ChunkID)
    (hA : A ∈ s.chunkRequestsInProgress)
    (hB1 : B ∉ s.chunkRequestsInProgress)
    (hB2 : mapLookup s.loadedChunks B = none) :
    B ∈ ((getChunk s B true).2).chunkRequests ∧
    B ∈ (commitResults ((getChunk s B true).2)
          (generateBatch gen ((getChunk s B true).2).chunkRequestsInProgress)).chunkRequests ∧
    mapLookup (chunkLoadCycle gen
        (commitResults ((getChunk s B true).2)
          (generateBatch gen
            ((getChunk s B true).2).chunkRequestsInProgress))).loadedChunks B
      = some (gen B) := by
  have hmem : B ∈ ((getChunk s B true).2).chunkRequests := by
    rw [getChunk_not_loaded_true s B hB2]
    by_cases hp : B ∈ s.chunkRequests
    · rw [if_pos (Or.inl hp)]
      exact hp
    · have hcond : ¬(B ∈ s.chunkRequests ∨ B ∈ s.chunkRequestsInProgress) := by tauto
      rw [if_neg hcond]
      exact List.mem_cons_self B _
  refine ⟨hmem, hmem, ?_⟩
  show mapLookup
      (storeResults _
        (generateBatch gen ((getChunk s B true).2).chunkRequests)) B = some (gen B)
  rw [mapLookup_storeResults_generateBatch, if_pos hmem]

theorem C8_no_lost_requests_witness :
    mapLookup (chunkLoadCycle (fun _ => (9:Nat))
        (commitResults ((getChunk (⟨[], [⟨0,0,0⟩], []⟩ : ServerState Nat) ⟨1,0,0⟩ true).2)
          (generateBatch (fun _ => (9:Nat))
            ((getChunk (⟨[], [⟨0,0,0⟩], []⟩ : ServerState Nat) ⟨1,0,0⟩ true).2).chunkRequestsInProgress))).loadedChunks
      ⟨1,0,0⟩ = some 9 :=
  (C8_no_lost_requests Nat (fun _ => 9) ⟨[], [⟨0,0,0⟩], []⟩ ⟨0,0,0⟩ ⟨1,0,0⟩
      (by decide) (by decide) rfl).2.2

/-- C9: the return value of `getChunk` is independent of the `request`
flag — on the same state both flag values return the loaded lookup — and
the flag influences only the pending set: with `request = false` the state
is untouched, and with `request = true` in-progress and loaded are
untouched. -/
theorem C9_result_flag_independent (Chunk : Type) (s : ServerState Chunk) (id : ChunkID) :
    (getChunk s id true).1 = (getChunk s id false).1 ∧
    (getChunk s id false).2 = s ∧
    (getChunk s id true).2.chunkRequestsInProgress = s.chunkRequestsInProgress ∧
    (getChunk s id true).2.loadedChunks = s.loadedChunks := by
  refine ⟨?_, ?_, getChunk_inProgress s id true, getChunk_loadedChunks s id true⟩
  · rw [getChunk_fst, getChunk_fst]
  · rw [getChunk_false_eq]

/-- C10: the loaded map grows monotonically: at every reachable state,
every binding (x, c) present in loaded before any single operation
(lookup with either flag, drain, or commit) is still present and
unchanged after it. -/
theorem C10_loaded_monotone (Chunk : Type) (gen : ChunkID → Chunk)
    (s : ServerState Chunk) (op : Op) (x : ChunkID) (c : Chunk)
    (hs : Reachable gen s)
    (hx : mapLookup s.loadedChunks x = some c) :
    mapLookup (applyOp gen s op).loadedChunks x = some c :=
  mapLookup_applyOp_mono gen s op x c (inv_reachable gen s hs) hx

theorem C10_loaded_monotone_witness :
    mapLookup (applyOp (fun _ => (7:Nat)) ⟨[], [], [(⟨0,0,0⟩, 7)]⟩
        Op.commit).loadedChunks ⟨0,0,0⟩ = some 7 :=
  C10_loaded_monotone Nat (fun _ => 7) ⟨[], [], [(⟨0,0,0⟩, 7)]⟩ Op.commit ⟨0,0,0⟩ 7
    ⟨[Op.get ⟨0,0,0⟩ true, Op.drain, Op.commit], by decide, by decide⟩ (by decide)

end Blok
